import Mathlib

/-!
Shallow embedding of `src/main.rs` of the betterDevCalc repository: a
command-line arithmetic evaluator over base-tagged 64-bit signed integers
with `+`, `-`, `*` and parentheses. Text is modelled as `String` /
`List Char`, 64-bit signed integers as `Int` with explicit two's-complement
wrapping, and Rust `Result<T, String>` as `Except String T`. A Rust panic
(the `unreachable!()` branch of `Operation::apply`) is modelled as `none`
in an `Option` layer.
-/

set_option autoImplicit false

deriving instance DecidableEq for Except

namespace BDC

/-- Rust `enum Operation` from src/main.rs. -/
inductive Operation where
  | add
  | subtract
  | multiply
  | openParen
  | closeParen
deriving DecidableEq, Repr

/-- Rust `enum Base` from src/main.rs. -/
inductive Base where
  | decimal
  | hexadecimal
deriving DecidableEq, Repr

/-- Rust `struct Number { value: i64, base: Base }`; the i64 value is held
as an unbounded `Int`, with range side conditions stated where needed. -/
structure Number where
  value : Int
  base : Base
deriving DecidableEq, Repr

/-- Rust `enum Token`. -/
inductive Token where
  | number (n : Number)
  | operation (op : Operation)
deriving DecidableEq, Repr

/-- `Operation::precedence` (u8 result held as `Nat`; values are 0, 1, 2). -/
def Operation.precedence : Operation → Nat
  | .add | .subtract => 1
  | .multiply => 2
  | .openParen | .closeParen => 0

/-- `Operation::from_char`. -/
def Operation.from_char (c : Char) : Except String Operation :=
  if c = '+' then .ok .add
  else if c = '-' then .ok .subtract
  else if c = '*' then .ok .multiply
  else if c = '(' then .ok .openParen
  else if c = ')' then .ok .closeParen
  else .error ("Invalid operator: " ++ String.singleton c)

/-- The lower bound of i64, `-2^63`. -/
def i64Min : Int := -(2 ^ 63)

/-- The upper bound of i64, `2^63 - 1`. -/
def i64Max : Int := 2 ^ 63 - 1

/-- Reduce an unbounded integer into i64 range by two's-complement
wraparound, the release-mode semantics of Rust `i64` arithmetic. -/
def wrap64 (x : Int) : Int := (x + 2 ^ 63) % 2 ^ 64 - 2 ^ 63

/-- `Operation::apply`: wrapping i64 arithmetic for the three binary
operators; `none` models the `unreachable!()` panic for parentheses. -/
def Operation.apply (op : Operation) (left right : Int) : Option Int :=
  match op with
  | .add => some (wrap64 (left + right))
  | .subtract => some (wrap64 (left - right))
  | .multiply => some (wrap64 (left * right))
  | _ => none

/-- `Base::from_char`. -/
def Base.from_char (c : Char) : Except String Base :=
  if c = 'd' then .ok .decimal
  else if c = 'h' then .ok .hexadecimal
  else .error ("Invalid base: " ++ String.singleton c)

/-- Rust `char::to_digit(radix)`: `0`-`9`, then letters with value 10
upward, accepted only below the radix. -/
def digitVal? (base : Nat) (c : Char) : Option Nat :=
  let v : Option Nat :=
    if '0' ≤ c ∧ c ≤ '9' then some (c.toNat - 48)
    else if 'a' ≤ c ∧ c ≤ 'z' then some (c.toNat - 87)
    else if 'A' ≤ c ∧ c ≤ 'Z' then some (c.toNat - 55)
    else none
  match v with
  | some d => if d < base then some d else none
  | none => none

/-- Accumulating digit loop shared by the integer-parsing model. -/
def parseDigitsGo (base : Nat) (acc : Nat) : List Char → Option Nat
  | [] => some acc
  | c :: cs =>
    match digitVal? base c with
    | some d => parseDigitsGo base (acc * base + d) cs
    | none => none

/-- Parse a nonempty run of digits in the given base as a natural number;
`none` on an empty list or any invalid digit. -/
def parseNatDigits? (base : Nat) (l : List Char) : Option Nat :=
  match l with
  | [] => none
  | _ :: _ => parseDigitsGo base 0 l

/-- Model of Rust `i64::from_str_radix` (and of `str::parse::<i64>` at
base 10): an optional `+`/`-` sign, then at least one digit of the base,
rejecting values outside i64 range. -/
def parseI64? (base : Nat) (l : List Char) : Option Int :=
  match l with
  | [] => none
  | c :: rest =>
    if c = '-' then
      (parseNatDigits? base rest).bind fun n =>
        if n ≤ 2 ^ 63 then some (-(n : Int)) else none
    else if c = '+' then
      (parseNatDigits? base rest).bind fun n =>
        if n ≤ 2 ^ 63 - 1 then some ((n : Int)) else none
    else
      (parseNatDigits? base l).bind fun n =>
        if n ≤ 2 ^ 63 - 1 then some ((n : Int)) else none

/-- `Number::parse`: first character selects the base, the remaining text
is the value in that base. -/
def Number.parse (input : String) : Except String Number :=
  match input.data with
  | [] => .error "Empty number"
  | c :: rest =>
    match Base.from_char c with
    | .error e => .error e
    | .ok base =>
      match base with
      | .decimal =>
        match parseI64? 10 rest with
        | some v => .ok ⟨v, .decimal⟩
        | none => .error ("Invalid decimal number: " ++ String.mk rest)
      | .hexadecimal =>
        match parseI64? 16 rest with
        | some v => .ok ⟨v, .hexadecimal⟩
        | none => .error ("Invalid hexadecimal number: " ++ String.mk rest)

/-- Digit value to character: `0`-`9` then uppercase `A`-`F`, as Rust's
`{}`/`{:X}` formatting produces. -/
def digitChar (d : Nat) : Char :=
  if d < 10 then Char.ofNat (48 + d) else Char.ofNat (55 + d)

/-- Most-significant-first digit list of `n` in `base`, with explicit
recursion depth `fuel`; correct whenever `n < base ^ fuel`. -/
def digitsGo (base : Nat) : Nat → Nat → List Nat
  | 0, _ => []
  | fuel + 1, n =>
    if n = 0 then [] else digitsGo base fuel (n / base) ++ [n % base]

/-- Digit list of `n` in `base` with no leading zeros (`0` renders as
`[0]`). Fuel 96 covers every value below `base ^ 96`, in particular every
64-bit quantity in bases 10 and 16, the only bases the program formats. -/
def natDigitsMSF (base n : Nat) : List Nat :=
  if n = 0 then [0] else digitsGo base 96 n

/-- Decimal rendering of an integer, as Rust `format!("{}", v)` on i64. -/
def intDecChars (v : Int) : List Char :=
  (if v < 0 then ['-'] else []) ++ (natDigitsMSF 10 v.natAbs).map digitChar

/-- Uppercase-hex rendering of an i64, as Rust `format!("{:X}", v)`: the
two's-complement bit pattern of `v` printed as an unsigned number. -/
def i64HexChars (v : Int) : List Char :=
  (natDigitsMSF 16 (v % 2 ^ 64).toNat).map digitChar

/-- `Number::format`. -/
def Number.format (n : Number) : String :=
  match n.base with
  | .decimal => String.mk ('d' :: intDecChars n.value)
  | .hexadecimal => String.mk ('h' :: i64HexChars n.value)

/-- Model of Rust `char::is_whitespace` on the ASCII range (the only
characters the program's grammar can meet). -/
def rustWhitespace (c : Char) : Bool :=
  c = ' ' ∨ c = '\t' ∨ c = '\n' ∨ c = '\r' ∨ c.toNat = 11 ∨ c.toNat = 12

/-- Rust `char::is_digit(16)`. -/
def isHexDigit (c : Char) : Bool :=
  (digitVal? 16 c).isSome

/-- The scanning loop of `tokenize`: remaining characters, the
`current_number` accumulator, and the tokens emitted so far. -/
def tokenizeGo : List Char → List Char → List Token → Except String (List Token)
  | [], acc, tokens =>
    if acc = [] then .ok tokens
    else
      match Number.parse (String.mk acc) with
      | .error e => .error e
      | .ok n => .ok (tokens ++ [Token.number n])
  | c :: cs, acc, tokens =>
    if c = 'd' ∨ c = 'h' then
      if acc = [] then tokenizeGo cs [c] tokens
      else
        match Number.parse (String.mk acc) with
        | .error e => .error e
        | .ok n => tokenizeGo cs [c] (tokens ++ [Token.number n])
    else if isHexDigit c then
      tokenizeGo cs (acc ++ [c]) tokens
    else if c = '+' ∨ c = '-' ∨ c = '*' ∨ c = '(' ∨ c = ')' then
      match (if acc = [] then .ok tokens
             else
               match Number.parse (String.mk acc) with
               | .error e => .error e
               | .ok n => .ok (tokens ++ [Token.number n]) :
             Except String (List Token)) with
      | .error e => .error e
      | .ok tokens1 =>
        match Operation.from_char c with
        | .error e => .error e
        | .ok op => tokenizeGo cs [] (tokens1 ++ [Token.operation op])
    else
      .error ("Invalid character: " ++ String.singleton c)

/-- `tokenize`: strip whitespace, then scan. -/
def tokenize (expr : List Char) : Except String (List Token) :=
  tokenizeGo (expr.filter fun c => !rustWhitespace c) [] []

/-- The `while let` loop run for a CloseParen in `shunting_yard`: pop
operators to the output until an OpenParen is popped and discarded; an
emptied stack ends the loop silently. Returns (stack, output). -/
def popUntilOpen : List Token → List Token → List Token × List Token
  | [], out => ([], out)
  | Token.operation op :: rest, out =>
    if op = Operation.openParen then (rest, out)
    else popUntilOpen rest (out ++ [Token.operation op])
  | Token.number n :: rest, out => (Token.number n :: rest, out)

/-- The `while let` loop run for a binary operator in `shunting_yard`: pop
operators of precedence ≥ the incoming one to the output, stopping at an
OpenParen. Returns (stack, output). -/
def popWhileGE (op : Operation) : List Token → List Token → List Token × List Token
  | [], out => ([], out)
  | Token.operation top :: rest, out =>
    if top = Operation.openParen ∨ top.precedence < op.precedence then
      (Token.operation top :: rest, out)
    else popWhileGE op rest (out ++ [Token.operation top])
  | Token.number n :: rest, out => (Token.number n :: rest, out)

/-- The main token loop of `shunting_yard`; returns (output, stack). -/
def syLoop : List Token → List Token → List Token → List Token × List Token
  | [], out, stack => (out, stack)
  | t :: ts, out, stack =>
    match t with
    | Token.number n => syLoop ts (out ++ [Token.number n]) stack
    | Token.operation .openParen =>
      syLoop ts out (Token.operation .openParen :: stack)
    | Token.operation .closeParen =>
      let p := popUntilOpen stack out
      syLoop ts p.2 p.1
    | Token.operation op =>
      let p := popWhileGE op stack out
      syLoop ts p.2 (Token.operation op :: p.1)

/-- The final drain of `shunting_yard`: pop the remaining operators to the
output, rejecting a leftover OpenParen. -/
def syDrain : List Token → List Token → Except String (List Token)
  | [], out => .ok out
  | t :: rest, out =>
    match t with
    | Token.operation .openParen => .error "Unmatched open parenthesis"
    | _ => syDrain rest (out ++ [t])

/-- `shunting_yard`: infix to postfix with an operator stack. -/
def shunting_yard (tokens : List Token) : Except String (List Token) :=
  let p := syLoop tokens [] []
  syDrain p.2 p.1

/-- One token of the `evaluate_rpn` loop acting on the value stack (head =
top); `none` is the panic of `Operation::apply` on a parenthesis. -/
def rpnStep (stack : List Int) : Token → Option (Except String (List Int))
  | Token.number n => some (.ok (n.value :: stack))
  | Token.operation op =>
    match stack with
    | right :: left :: rest =>
      match op.apply left right with
      | some v => some (.ok (v :: rest))
      | none => none
    | _ => some (.error "Invalid expression")

/-- The full loop of `evaluate_rpn`, returning the final value stack. -/
def rpnRun (stack : List Int) : List Token → Option (Except String (List Int))
  | [] => some (.ok stack)
  | t :: ts =>
    match rpnStep stack t with
    | some (.ok stack1) => rpnRun stack1 ts
    | some (.error e) => some (.error e)
    | none => none

/-- `evaluate_rpn`: run the loop from an empty stack, then pop the final
value (`Invalid expression` when the stack ends empty). -/
def evaluate_rpn (tokens : List Token) : Option (Except String Int) :=
  match rpnRun [] tokens with
  | none => none
  | some (.error e) => some (.error e)
  | some (.ok stack) =>
    match stack with
    | [] => some (.error "Invalid expression")
    | v :: _ => some (.ok v)

/-- Rust `str::trim` on a character list. -/
def trimChars (l : List Char) : List Char :=
  (((l.dropWhile rustWhitespace).reverse).dropWhile rustWhitespace).reverse

/-- `process_expression`: trim, take the trailing output-base marker,
tokenize the remaining body, convert to postfix, evaluate, and format the
result in the requested base. The outer `Option` is the panic layer. -/
def process_expression (input : String) : Option (Except String String) :=
  let l := trimChars input.data
  if l.isEmpty then some (.error "Empty expression")
  else
    match l.getLast? with
    | none => some (.error "Empty expression")
    | some c =>
      match Base.from_char c with
      | .error e => some (.error e)
      | .ok output_base =>
        let expr := trimChars l.dropLast
        match tokenize expr with
        | .error e => some (.error e)
        | .ok tokens =>
          match shunting_yard tokens with
          | .error e => some (.error e)
          | .ok rpn_tokens =>
            match evaluate_rpn rpn_tokens with
            | none => none
            | some (.error e) => some (.error e)
            | some (.ok result) =>
              some (.ok (Number.format ⟨result, output_base⟩))

/-- True when the token list holds no parenthesis operation token (numbers
and the three binary operators only). -/
def noParens (ts : List Token) : Bool :=
  ts.all fun t =>
    match t with
    | Token.operation .openParen => false
    | Token.operation .closeParen => false
    | _ => true

/-- Invariant of the shunting-yard operator stack: every element is an
operation token other than CloseParen. -/
def stackInvB (stack : List Token) : Bool :=
  stack.all fun t =>
    match t with
    | Token.number _ => false
    | Token.operation .closeParen => false
    | _ => true

/-- Number of Number tokens in the list. -/
def numCount (ts : List Token) : Nat :=
  ts.countP fun t =>
    match t with
    | Token.number _ => true
    | Token.operation _ => false

/-- Number of Operation tokens in the list. -/
def opCount (ts : List Token) : Nat :=
  ts.countP fun t =>
    match t with
    | Token.number _ => false
    | Token.operation _ => true

/-- The accumulator strings the tokenizer loop flushes into
`Number::parse`, in order, mirroring the flush points of `tokenizeGo`
(base-marker branch, operator branch, and end of input). -/
def flushedAccs : List Char → List Char → List (List Char)
  | [], acc => if acc = [] then [] else [acc]
  | c :: cs, acc =>
    if c = 'd' ∨ c = 'h' then
      (if acc = [] then [] else [acc]) ++ flushedAccs cs [c]
    else if isHexDigit c then
      flushedAccs cs (acc ++ [c])
    else if c = '+' ∨ c = '-' ∨ c = '*' ∨ c = '(' ∨ c = ')' then
      (if acc = [] then [] else [acc]) ++ flushedAccs cs []
    else
      []

/-- No character of the list is a base marker (`d` or `h`). -/
def noMarkers (l : List Char) : Bool :=
  l.all fun c => !(decide (c = 'd') || decide (c = 'h'))

/-- An accumulator that begins with exactly one base-marker character:
its head is `d` or `h` and no later character is a base marker. -/
def goodAccB (l : List Char) : Bool :=
  match l with
  | [] => false
  | c :: rest => (decide (c = 'd') || decide (c = 'h')) && noMarkers rest

/-- The final drain of the shunting yard errors exactly when an OpenParen
token is among the leftover operators. -/
theorem syDrain_error_iff (stack : List Token) :
    ∀ out, (syDrain stack out = .error "Unmatched open parenthesis" ↔
      Token.operation Operation.openParen ∈ stack) := by
  induction stack with
  | nil => intro out; simp [syDrain]
  | cons t rest ih =>
    intro out
    match t with
    | Token.number n =>
      simp only [syDrain, List.mem_cons]
      rw [ih]
      simp
    | Token.operation .openParen => simp [syDrain]
    | Token.operation .add =>
      simp only [syDrain, List.mem_cons]
      rw [ih]
      simp
    | Token.operation .subtract =>
      simp only [syDrain, List.mem_cons]
      rw [ih]
      simp
    | Token.operation .multiply =>
      simp only [syDrain, List.mem_cons]
      rw [ih]
      simp
    | Token.operation .closeParen =>
      simp only [syDrain, List.mem_cons]
      rw [ih]
      simp

/-- C5: shunting-yard conversion fails with `UnmatchedOpenParen` exactly
when an OpenParen remains on the operator stack after the token loop; a
CloseParen with no matching OpenParen is silently dropped (prepending one
never changes the result), and `process("(d1+d2d")` fails with
`UnmatchedOpenParen`. -/
theorem c5_unmatched_paren_asymmetry :
    (∀ ts : List Token,
      shunting_yard ts = .error "Unmatched open parenthesis" ↔
        Token.operation Operation.openParen ∈ (syLoop ts [] []).2)
    ∧ (∀ ts : List Token,
        shunting_yard (Token.operation Operation.closeParen :: ts) =
          shunting_yard ts)
    ∧ process_expression "(d1+d2d" =
        some (.error "Unmatched open parenthesis") := by
  refine ⟨fun ts => ?_, fun ts => ?_, by decide⟩
  · exact syDrain_error_iff (syLoop ts [] []).2 (syLoop ts [] []).1
  · show syDrain (syLoop _ [] []).2 (syLoop _ [] []).1 = _
    simp [syLoop, popUntilOpen]
    rfl

/-- `wrap64` lands in i64 range and is congruent to its argument modulo
`2^64`. -/
theorem wrap64_spec (x : Int) :
    i64Min ≤ wrap64 x ∧ wrap64 x ≤ i64Max ∧ (2 ^ 64 : Int) ∣ (wrap64 x - x) := by
  unfold wrap64 i64Min i64Max
  have hne : ((2 : Int) ^ 64) ≠ 0 := by norm_num
  have hpos : (0 : Int) < 2 ^ 64 := by norm_num
  have h1 := Int.emod_nonneg (x + 2 ^ 63) hne
  have h2 := Int.emod_lt_of_pos (x + 2 ^ 63) hpos
  have hsplit : ((2 : Int) ^ 64) = 2 ^ 63 * 2 := by ring
  refine ⟨by linarith, by linarith, ?_⟩
  refine ⟨-((x + 2 ^ 63) / 2 ^ 64), ?_⟩
  rw [Int.emod_def]
  ring

/-- C9: Add, Subtract and Multiply on i64 operands always produce
`some` result (no failure, no trap), equal to the mathematical result
wrapped two's-complement into i64 range: in range and congruent to the
exact result modulo `2^64`. -/
theorem c9_wrapping_semantics (a b : Int)
    (ha1 : i64Min ≤ a) (ha2 : a ≤ i64Max)
    (hb1 : i64Min ≤ b) (hb2 : b ≤ i64Max) :
    (Operation.apply .add a b = some (wrap64 (a + b))
      ∧ i64Min ≤ wrap64 (a + b) ∧ wrap64 (a + b) ≤ i64Max
      ∧ (2 ^ 64 : Int) ∣ (wrap64 (a + b) - (a + b)))
    ∧ (Operation.apply .subtract a b = some (wrap64 (a - b))
      ∧ i64Min ≤ wrap64 (a - b) ∧ wrap64 (a - b) ≤ i64Max
      ∧ (2 ^ 64 : Int) ∣ (wrap64 (a - b) - (a - b)))
    ∧ (Operation.apply .multiply a b = some (wrap64 (a * b))
      ∧ i64Min ≤ wrap64 (a * b) ∧ wrap64 (a * b) ≤ i64Max
      ∧ (2 ^ 64 : Int) ∣ (wrap64 (a * b) - (a * b))) := by
  obtain ⟨p1, p2, p3⟩ := wrap64_spec (a + b)
  obtain ⟨q1, q2, q3⟩ := wrap64_spec (a - b)
  obtain ⟨r1, r2, r3⟩ := wrap64_spec (a * b)
  exact ⟨⟨rfl, p1, p2, p3⟩, ⟨rfl, q1, q2, q3⟩, ⟨rfl, r1, r2, r3⟩⟩

/-- Witness for C9 at `a = 1`, `b = 2`. -/
theorem c9_wrapping_semantics_witness :
    (Operation.apply .add 1 2 = some (wrap64 (1 + 2))
      ∧ i64Min ≤ wrap64 (1 + 2) ∧ wrap64 (1 + 2) ≤ i64Max
      ∧ (2 ^ 64 : Int) ∣ (wrap64 (1 + 2) - (1 + 2)))
    ∧ (Operation.apply .subtract 1 2 = some (wrap64 (1 - 2))
      ∧ i64Min ≤ wrap64 (1 - 2) ∧ wrap64 (1 - 2) ≤ i64Max
      ∧ (2 ^ 64 : Int) ∣ (wrap64 (1 - 2) - (1 - 2)))
    ∧ (Operation.apply .multiply 1 2 = some (wrap64 (1 * 2))
      ∧ i64Min ≤ wrap64 (1 * 2) ∧ wrap64 (1 * 2) ≤ i64Max
      ∧ (2 ^ 64 : Int) ∣ (wrap64 (1 * 2) - (1 * 2))) :=
  c9_wrapping_semantics 1 2 (by decide) (by decide) (by decide) (by decide)

/-- Every digit character below base 10 parses back to its value. -/
theorem digitVal_digitChar_10 : ∀ d < 10, digitVal? 10 (digitChar d) = some d := by
  decide

/-- Every digit character below base 16 parses back to its value. -/
theorem digitVal_digitChar_16 : ∀ d < 16, digitVal? 16 (digitChar d) = some d := by
  decide

/-- Digit characters are never sign characters. -/
theorem digitChar_ne_sign : ∀ d < 16, digitChar d ≠ '-' ∧ digitChar d ≠ '+' := by
  decide

/-- The digit loop of the parser inverts `digitChar` rendering, computing
the base-`base` fold of the digit values. -/
theorem parseDigitsGo_map (base : Nat) :
    ∀ (ds : List Nat) (acc : Nat),
      (∀ d ∈ ds, digitVal? base (digitChar d) = some d) →
      parseDigitsGo base acc (ds.map digitChar) =
        some (ds.foldl (fun a d => a * base + d) acc) := by
  intro ds
  induction ds with
  | nil => intro acc _; rfl
  | cons d ds ih =>
    intro acc h
    have hd := h d (List.mem_cons_self d ds)
    simp only [List.map_cons, parseDigitsGo, hd, List.foldl_cons]
    exact ih (acc * base + d) fun x hx => h x (List.mem_cons_of_mem d hx)

/-- Every entry of `digitsGo` is a valid digit of the base. -/
theorem digitsGo_lt (base : Nat) (hb : 2 ≤ base) :
    ∀ fuel n, ∀ d ∈ digitsGo base fuel n, d < base := by
  intro fuel
  induction fuel with
  | zero => intro n d hd; simp [digitsGo] at hd
  | succ fuel ih =>
    intro n d hd
    by_cases hn : n = 0
    · simp [digitsGo, hn] at hd
    · simp only [digitsGo, if_neg hn, List.mem_append, List.mem_singleton] at hd
      rcases hd with hd | hd
      · exact ih (n / base) d hd
      · subst hd; exact Nat.mod_lt n (by omega)

/-- Folding the digits of `n` most-significant-first recovers `n`,
whenever the fuel covers `n`. -/
theorem digitsGo_foldl (base : Nat) (hb : 2 ≤ base) :
    ∀ fuel n, n < base ^ fuel →
      (digitsGo base fuel n).foldl (fun a d => a * base + d) 0 = n := by
  intro fuel
  induction fuel with
  | zero =>
    intro n hn
    simp only [pow_zero, Nat.lt_one_iff] at hn
    simp [digitsGo, hn]
  | succ fuel ih =>
    intro n hn
    by_cases hzero : n = 0
    · simp [digitsGo, hzero]
    · have hdiv : n / base < base ^ fuel := by
        rw [Nat.div_lt_iff_lt_mul (by omega : 0 < base)]
        calc n < base ^ (fuel + 1) := hn
          _ = base ^ fuel * base := by rw [pow_succ]
      simp only [digitsGo, if_neg hzero, List.foldl_append, List.foldl_cons,
        List.foldl_nil, ih (n / base) hdiv]
      rw [Nat.mul_comm, Nat.div_add_mod]

/-- The digit list of a nonzero covered value is nonempty. -/
theorem digitsGo_ne_nil (base fuel n : Nat) (hn : n ≠ 0) (h : n < base ^ fuel) :
    digitsGo base fuel n ≠ [] := by
  cases fuel with
  | zero => simp only [pow_zero, Nat.lt_one_iff] at h; exact absurd h hn
  | succ fuel => simp [digitsGo, if_neg hn]

/-- Every digit of the rendered digit list is below the base, for bases
10 and 16. -/
theorem natDigitsMSF_lt (base : Nat) (hb2 : 2 ≤ base) (m : Nat) :
    ∀ d ∈ natDigitsMSF base m, d < base := by
  intro d hd
  by_cases hzero : m = 0
  · simp [natDigitsMSF, hzero] at hd
    subst hd; omega
  · simp only [natDigitsMSF, if_neg hzero] at hd
    exact digitsGo_lt base hb2 96 m d hd

/-- The rendered digit list is never empty. -/
theorem natDigitsMSF_ne_nil (base m : Nat) (hcov : m < base ^ 96) :
    natDigitsMSF base m ≠ [] := by
  by_cases hzero : m = 0
  · simp [natDigitsMSF, hzero]
  · simp only [natDigitsMSF, if_neg hzero]
    exact digitsGo_ne_nil base 96 m hzero hcov

/-- Parsing the rendered (sign-free) digit characters of `m` in base 10
or 16 recovers `m`, whenever 96 digits cover `m`. -/
theorem parseNatDigits_roundtrip (base : Nat) (hb : base = 10 ∨ base = 16)
    (m : Nat) (hcov : m < base ^ 96) :
    parseNatDigits? base ((natDigitsMSF base m).map digitChar) = some m := by
  have hb2 : 2 ≤ base := by rcases hb with h | h <;> omega
  have hvalid : ∀ d ∈ natDigitsMSF base m, digitVal? base (digitChar d) = some d := by
    intro d hd
    have hdlt := natDigitsMSF_lt base hb2 m d hd
    rcases hb with h | h <;> subst h
    · exact digitVal_digitChar_10 d hdlt
    · exact digitVal_digitChar_16 d hdlt
  have hfold : (natDigitsMSF base m).foldl (fun a d => a * base + d) 0 = m := by
    by_cases hzero : m = 0
    · simp [natDigitsMSF, hzero]
    · simp only [natDigitsMSF, if_neg hzero]
      exact digitsGo_foldl base hb2 96 m hcov
  have hgo := parseDigitsGo_map base (natDigitsMSF base m) 0 hvalid
  obtain ⟨d0, ds, hds⟩ :=
    List.exists_cons_of_ne_nil (natDigitsMSF_ne_nil base m hcov)
  rw [hds] at hgo hfold ⊢
  simp only [List.map_cons, parseNatDigits?]
  rw [show (digitChar d0 :: ds.map digitChar) = ((d0 :: ds).map digitChar) from rfl,
    hgo, hfold]

/-- i64 magnitudes are covered by 96 digits in bases 10 and 16. -/
theorem i64_mag_covered (base : Nat) (hb : base = 10 ∨ base = 16)
    (m : Nat) (hm : m ≤ 2 ^ 63) : m < base ^ 96 := by
  rcases hb with h | h <;> subst h
  · calc m ≤ 2 ^ 63 := hm
      _ < 10 ^ 96 := by norm_num
  · calc m ≤ 2 ^ 63 := hm
      _ < 16 ^ 96 := by norm_num

/-- Parsing the rendered digits of `m` (no sign) in base 10 or 16 yields
`m` back, for every `m` in i64-magnitude range. -/
theorem parseI64_digits_roundtrip (base : Nat) (hb : base = 10 ∨ base = 16)
    (m : Nat) (hm : m ≤ 2 ^ 63 - 1) :
    parseI64? base ((natDigitsMSF base m).map digitChar) = some (m : Int) := by
  have hb2 : 2 ≤ base := by rcases hb with h | h <;> omega
  have hcov : m < base ^ 96 := i64_mag_covered base hb m (by omega)
  obtain ⟨d0, ds, hds⟩ :=
    List.exists_cons_of_ne_nil (natDigitsMSF_ne_nil base m hcov)
  have hd0 : d0 < 16 := by
    have := natDigitsMSF_lt base hb2 m d0
      (by rw [hds]; exact List.mem_cons_self d0 ds)
    rcases hb with h | h <;> omega
  obtain ⟨hne1, hne2⟩ := digitChar_ne_sign d0 hd0
  have hparse := parseNatDigits_roundtrip base hb m hcov
  rw [hds] at hparse ⊢
  simp only [List.map_cons, parseI64?, if_neg hne1, if_neg hne2]
  rw [show (digitChar d0 :: ds.map digitChar) = ((d0 :: ds).map digitChar) from rfl,
    hparse]
  simp only [Option.some_bind]
  rw [if_pos hm]

/-- `Number::parse` applied to a decimal-prefixed character list. -/
theorem parse_mk_d (l : List Char) :
    Number.parse (String.mk ('d' :: l)) =
      match parseI64? 10 l with
      | some v => .ok ⟨v, .decimal⟩
      | none => .error ("Invalid decimal number: " ++ String.mk l) := rfl

/-- `Number::parse` applied to a hexadecimal-prefixed character list. -/
theorem parse_mk_h (l : List Char) :
    Number.parse (String.mk ('h' :: l)) =
      match parseI64? 16 l with
      | some v => .ok ⟨v, .hexadecimal⟩
      | none => .error ("Invalid hexadecimal number: " ++ String.mk l) := rfl

/-- C2 counterexample: formatting `-1` in hexadecimal renders the
two's-complement pattern `hFFFFFFFFFFFFFFFF`, whose magnitude exceeds
i64 range, so parsing it back fails instead of returning the number. -/
theorem c2_counterexample :
    Number.parse (Number.format ⟨-1, Base.hexadecimal⟩) =
      .error "Invalid hexadecimal number: FFFFFFFFFFFFFFFF"
    ∧ Number.parse (Number.format ⟨-1, Base.hexadecimal⟩) ≠
      .ok ⟨-1, Base.hexadecimal⟩ := by
  constructor
  · decide
  · decide

/-- C2 (amended): the format-then-parse round trip holds for every i64
value in base Decimal, and for every nonnegative i64 value in base
Hexadecimal (negative hexadecimal formatting uses the two's-complement
pattern, which does not parse back, see the counterexample). -/
theorem c2_roundtrip_amended (v : Int) (h1 : i64Min ≤ v) (h2 : v ≤ i64Max) :
    Number.parse (Number.format ⟨v, Base.decimal⟩) = .ok ⟨v, Base.decimal⟩
    ∧ (0 ≤ v →
        Number.parse (Number.format ⟨v, Base.hexadecimal⟩) =
          .ok ⟨v, Base.hexadecimal⟩) := by
  rw [i64Min] at h1
  rw [i64Max] at h2
  constructor
  · show Number.parse (String.mk ('d' :: intDecChars v)) = _
    rw [parse_mk_d]
    by_cases hv : v < 0
    · have hacc : intDecChars v =
          '-' :: (natDigitsMSF 10 v.natAbs).map digitChar := by
        simp [intDecChars, if_pos hv]
      have hmag : v.natAbs ≤ 2 ^ 63 := by omega
      have hparse :=
        parseNatDigits_roundtrip 10 (Or.inl rfl) v.natAbs
          (i64_mag_covered 10 (Or.inl rfl) v.natAbs hmag)
      rw [hacc]
      rw [show parseI64? 10 ('-' :: (natDigitsMSF 10 v.natAbs).map digitChar) =
          (parseNatDigits? 10 ((natDigitsMSF 10 v.natAbs).map digitChar)).bind
            (fun n => if n ≤ 2 ^ 63 then some (-(n : Int)) else none) from rfl,
        hparse, Option.some_bind, if_pos hmag]
      have hval : -((v.natAbs : Int)) = v := by omega
      rw [hval]
    · have hacc : intDecChars v = (natDigitsMSF 10 v.natAbs).map digitChar := by
        simp [intDecChars, if_neg hv]
      have hmag : v.natAbs ≤ 2 ^ 63 - 1 := by omega
      rw [hacc, parseI64_digits_roundtrip 10 (Or.inl rfl) v.natAbs hmag]
      have hval : ((v.natAbs : Int)) = v := by omega
      rw [hval]
  · intro h0
    show Number.parse (String.mk ('h' :: i64HexChars v)) = _
    rw [parse_mk_h]
    have hlt : v < 2 ^ 64 := by
      have hstep : (2 : Int) ^ 63 - 1 < 2 ^ 64 := by norm_num
      linarith
    have hmod : v % 2 ^ 64 = v := Int.emod_eq_of_lt h0 hlt
    have hmag : (v % 2 ^ 64).toNat ≤ 2 ^ 63 - 1 := by
      rw [hmod]; omega
    have hacc : i64HexChars v =
        (natDigitsMSF 16 (v % 2 ^ 64).toNat).map digitChar := rfl
    rw [hacc]
    rw [hmod]
    rw [hmod] at hmag
    rw [parseI64_digits_roundtrip 16 (Or.inr rfl) v.toNat hmag]
    have hval : ((v.toNat : Int)) = v := by omega
    rw [hval]

/-- Witness for C2 (amended) at `v = 7`. -/
theorem c2_roundtrip_amended_witness :
    Number.parse (Number.format ⟨7, Base.decimal⟩) = .ok ⟨7, Base.decimal⟩
    ∧ (0 ≤ (7 : Int) →
        Number.parse (Number.format ⟨7, Base.hexadecimal⟩) =
          .ok ⟨7, Base.hexadecimal⟩) :=
  c2_roundtrip_amended 7 (by decide) (by decide)

/-- `Number::parse` rejects any literal whose first character is not a
base marker. -/
theorem parse_mk_not_marker (c : Char) (t : List Char)
    (h1 : ¬c = 'd') (h2 : ¬c = 'h') :
    Number.parse (String.mk (c :: t)) =
      .error ("Invalid base: " ++ String.singleton c) := by
  have hbase : Base.from_char c = .error ("Invalid base: " ++ String.singleton c) := by
    simp [Base.from_char, h1, h2]
  simp [Number.parse, hbase]

/-- A literal accepted by `Number::parse` starts with a base marker. -/
theorem parse_ok_head_marker (c : Char) (t : List Char) (n : Number)
    (h : Number.parse (String.mk (c :: t)) = .ok n) : c = 'd' ∨ c = 'h' := by
  by_cases h1 : c = 'd'
  · exact Or.inl h1
  by_cases h2 : c = 'h'
  · exact Or.inr h2
  rw [parse_mk_not_marker c t h1 h2] at h
  exact absurd h (by simp)

/-- Invariant of the tokenizer loop: provided the accumulator's tail is
marker-free, every accumulator flushed along a successful run begins with
exactly one base-marker character. -/
theorem tokenizeGo_flushes_good :
    ∀ (chars : List Char), ∀ (acc : List Char) (tokens ts : List Token),
      (acc = [] ∨ ∃ c0 t, acc = c0 :: t ∧ noMarkers t = true) →
      tokenizeGo chars acc tokens = .ok ts →
      ∀ a ∈ flushedAccs chars acc, goodAccB a = true := by
  intro chars
  induction chars with
  | nil =>
    intro acc tokens ts hinv hok a ha
    rcases hinv with rfl | ⟨c0, t, rfl, hmf⟩
    · simp [flushedAccs] at ha
    · simp only [flushedAccs, if_neg (List.cons_ne_nil c0 t)] at ha
      simp only [List.mem_singleton] at ha
      subst ha
      simp only [tokenizeGo, if_neg (List.cons_ne_nil c0 t)] at hok
      cases hp : Number.parse (String.mk (c0 :: t)) with
      | error e => rw [hp] at hok; exact absurd hok (by simp)
      | ok n =>
        rcases parse_ok_head_marker c0 t n hp with hm | hm <;>
          simp [goodAccB, hm, hmf]
  | cons c cs ih =>
    intro acc tokens ts hinv hok a ha
    by_cases hmk : c = 'd' ∨ c = 'h'
    · by_cases hacc : acc = []
      · subst hacc
        simp only [tokenizeGo, if_pos hmk, if_pos rfl] at hok
        simp only [flushedAccs, if_pos hmk, if_pos rfl, List.nil_append] at ha
        exact ih [c] tokens ts (Or.inr ⟨c, [], rfl, rfl⟩) hok a ha
      · rcases hinv with h0 | ⟨c0, t, rfl, hmf⟩
        · exact absurd h0 hacc
        simp only [tokenizeGo, if_pos hmk, if_neg hacc] at hok
        simp only [flushedAccs, if_pos hmk, if_neg hacc] at ha
        cases hp : Number.parse (String.mk (c0 :: t)) with
        | error e => rw [hp] at hok; exact absurd hok (by simp)
        | ok n =>
          rw [hp] at hok
          rcases List.mem_append.mp ha with ha1 | ha2
          · simp only [List.mem_singleton] at ha1
            subst ha1
            rcases parse_ok_head_marker c0 t n hp with hm | hm <;>
              simp [goodAccB, hm, hmf]
          · exact ih [c] _ ts (Or.inr ⟨c, [], rfl, rfl⟩) hok a ha2
    · by_cases hhex : isHexDigit c = true
      · simp only [tokenizeGo, if_neg hmk, if_pos hhex] at hok
        simp only [flushedAccs, if_neg hmk, if_pos hhex] at ha
        push_neg at hmk
        obtain ⟨hcd, hch⟩ := hmk
        have hinv1 : acc ++ [c] = [] ∨
            ∃ c0 t, acc ++ [c] = c0 :: t ∧ noMarkers t = true := by
          rcases hinv with rfl | ⟨c0, t, rfl, hmf⟩
          · exact Or.inr ⟨c, [], rfl, rfl⟩
          · refine Or.inr ⟨c0, t ++ [c], by simp, ?_⟩
            simp [noMarkers, List.all_append, hcd, hch]
            intro x hx
            have := hmf
            simp [noMarkers, List.all_eq_true] at this
            exact this x hx
        exact ih (acc ++ [c]) tokens ts hinv1 hok a ha
      · by_cases hop : c = '+' ∨ c = '-' ∨ c = '*' ∨ c = '(' ∨ c = ')'
        · simp only [tokenizeGo, if_neg hmk, if_neg hhex, if_pos hop] at hok
          simp only [flushedAccs, if_neg hmk, if_neg hhex, if_pos hop] at ha
          by_cases hacc : acc = []
          · subst hacc
            simp only [if_pos rfl, List.nil_append] at hok ha
            cases hfc : Operation.from_char c with
            | error e => rw [hfc] at hok; exact absurd hok (by simp)
            | ok op =>
              rw [hfc] at hok
              exact ih [] _ ts (Or.inl rfl) hok a ha
          · rcases hinv with h0 | ⟨c0, t, rfl, hmf⟩
            · exact absurd h0 hacc
            simp only [if_neg hacc] at hok ha
            cases hp : Number.parse (String.mk (c0 :: t)) with
            | error e => rw [hp] at hok; exact absurd hok (by simp)
            | ok n =>
              rw [hp] at hok
              rcases List.mem_append.mp ha with ha1 | ha2
              · simp only [List.mem_singleton] at ha1
                subst ha1
                rcases parse_ok_head_marker c0 t n hp with hm | hm <;>
                  simp [goodAccB, hm, hmf]
              · cases hfc : Operation.from_char c with
                | error e => rw [hfc] at hok; exact absurd hok (by simp)
                | ok op =>
                  rw [hfc] at hok
                  exact ih [] _ ts (Or.inl rfl) hok a ha2
        · simp only [tokenizeGo, if_neg hmk, if_neg hhex, if_neg hop] at hok
          exact absurd hok (by simp)

/-- C3: on every input accepted by `tokenize`, every literal accumulator
flushed into `Number::parse` begins with exactly one base-marker
character (head is `d` or `h`, and no later character is a marker). -/
theorem c3_tokenizer_flush_invariant (expr : List Char) (ts : List Token)
    (h : tokenize expr = .ok ts) :
    ∀ a ∈ flushedAccs (expr.filter fun c => !rustWhitespace c) [],
      goodAccB a = true :=
  tokenizeGo_flushes_good (expr.filter fun c => !rustWhitespace c) [] [] ts
    (Or.inl rfl) h

/-- Witness for C3 on the input `d1+d2`. -/
theorem c3_tokenizer_flush_invariant_witness : goodAccB ['d', '1'] = true :=
  c3_tokenizer_flush_invariant "d1+d2".data
    [Token.number ⟨1, Base.decimal⟩, Token.operation Operation.add,
      Token.number ⟨2, Base.decimal⟩]
    (by decide) ['d', '1'] (by decide)

/-- Counting: a Number token at the head adds one to `numCount`. -/
theorem numCount_cons_num (n : Number) (l : List Token) :
    numCount (Token.number n :: l) = numCount l + 1 := by
  simp [numCount, List.countP_cons]

/-- Counting: an Operation token at the head leaves `numCount` fixed. -/
theorem numCount_cons_op (op : Operation) (l : List Token) :
    numCount (Token.operation op :: l) = numCount l := by
  simp [numCount, List.countP_cons]

/-- Counting: a Number token at the head leaves `opCount` fixed. -/
theorem opCount_cons_num (n : Number) (l : List Token) :
    opCount (Token.number n :: l) = opCount l := by
  simp [opCount, List.countP_cons]

/-- Counting: an Operation token at the head adds one to `opCount`. -/
theorem opCount_cons_op (op : Operation) (l : List Token) :
    opCount (Token.operation op :: l) = opCount l + 1 := by
  simp [opCount, List.countP_cons]

/-- The only error message the RPN loop produces is `Invalid expression`. -/
theorem rpnRun_error_msg :
    ∀ (ts : List Token) (stack : List Int) (e : String),
      rpnRun stack ts = some (.error e) → e = "Invalid expression" := by
  intro ts
  induction ts with
  | nil => intro stack e h; simp [rpnRun] at h
  | cons t ts ih =>
    intro stack e h
    cases t with
    | number n =>
      simp only [rpnRun, rpnStep] at h
      exact ih _ e h
    | operation op =>
      match stack with
      | [] =>
        simp only [rpnRun, rpnStep, Option.some.injEq, Except.error.injEq] at h
        exact h.symm
      | [r] =>
        simp only [rpnRun, rpnStep, Option.some.injEq, Except.error.injEq] at h
        exact h.symm
      | r :: l :: rest =>
        cases happly : op.apply l r with
        | none => simp [rpnRun, rpnStep, happly] at h
        | some v =>
          simp only [rpnRun, rpnStep, happly] at h
          exact ih _ e h

/-- The RPN loop on paren-free tokens signals `Invalid expression`
exactly when some operator is met with fewer than two available values,
counted from the starting stack height. -/
theorem rpnRun_invalid_iff :
    ∀ (ts : List Token) (stack : List Int), noParens ts = true →
      (rpnRun stack ts = some (.error "Invalid expression") ↔
        ∃ i, i < ts.length ∧ (∃ op, ts[i]? = some (Token.operation op)) ∧
          stack.length + numCount (ts.take i) < opCount (ts.take i) + 2) := by
  intro ts
  induction ts with
  | nil =>
    intro stack _
    simp [rpnRun]
  | cons t ts ih =>
    intro stack hnp
    cases t with
    | number n =>
      have hnp1 : noParens ts = true := by
        simp only [noParens, List.all_cons, Bool.and_eq_true] at hnp
        exact hnp.2
      have hstep : rpnRun stack (Token.number n :: ts) =
          rpnRun (n.value :: stack) ts := by
        simp [rpnRun, rpnStep]
      rw [hstep, ih (n.value :: stack) hnp1]
      constructor
      · rintro ⟨i, hi, hopx, hc⟩
        refine ⟨i + 1, by simpa using Nat.succ_lt_succ hi, by simpa using hopx, ?_⟩
        simp only [List.take_succ_cons, numCount_cons_num, opCount_cons_num]
        simp only [List.length_cons] at hc
        omega
      · rintro ⟨j, hj, hopx, hc⟩
        match j with
        | 0 =>
          obtain ⟨op1, hop1⟩ := hopx
          simp at hop1
        | i + 1 =>
          refine ⟨i, by simpa using hj, by simpa using hopx, ?_⟩
          simp only [List.take_succ_cons, numCount_cons_num, opCount_cons_num] at hc
          simp only [List.length_cons]
          omega
    | operation op =>
      have hop3 : op = .add ∨ op = .subtract ∨ op = .multiply := by
        cases op <;> simp_all [noParens]
      have hnp1 : noParens ts = true := by
        simp only [noParens, List.all_cons, Bool.and_eq_true] at hnp
        exact hnp.2
      match stack with
      | [] =>
        have hstep : rpnRun [] (Token.operation op :: ts) =
            some (.error "Invalid expression") := by
          simp [rpnRun, rpnStep]
        rw [hstep]
        refine iff_of_true rfl ⟨0, by simp, ⟨op, by simp⟩, by simp [numCount, opCount]⟩
      | [r] =>
        have hstep : rpnRun [r] (Token.operation op :: ts) =
            some (.error "Invalid expression") := by
          simp [rpnRun, rpnStep]
        rw [hstep]
        refine iff_of_true rfl ⟨0, by simp, ⟨op, by simp⟩, by simp [numCount, opCount]⟩
      | r :: l :: rest =>
        obtain ⟨v, hv⟩ : ∃ v, op.apply l r = some v := by
          rcases hop3 with h | h | h <;> subst h <;> exact ⟨_, rfl⟩
        have hstep : rpnRun (r :: l :: rest) (Token.operation op :: ts) =
            rpnRun (v :: rest) ts := by
          simp [rpnRun, rpnStep, hv]
        rw [hstep, ih (v :: rest) hnp1]
        constructor
        · rintro ⟨i, hi, hopx, hc⟩
          refine ⟨i + 1, by simpa using Nat.succ_lt_succ hi, by simpa using hopx, ?_⟩
          simp only [List.take_succ_cons, numCount_cons_op, opCount_cons_op]
          simp only [List.length_cons] at hc ⊢
          omega
        · rintro ⟨j, hj, hopx, hc⟩
          match j with
          | 0 =>
            simp only [List.take_nil, List.take_zero, numCount, opCount,
              List.countP_nil, List.length_cons] at hc
            omega
          | i + 1 =>
            refine ⟨i, by simpa using hj, by simpa using hopx, ?_⟩
            simp only [List.take_succ_cons, numCount_cons_op, opCount_cons_op,
              List.length_cons] at hc
            simp only [List.length_cons]
            omega

/-- C8: on paren-free token sequences, `evaluate_rpn` fails with
`Invalid expression` exactly when an operator is met with fewer than two
stacked values or the value stack ends empty; and when the final stack is
nonempty the topmost (last-pushed) value is returned even if more values
remain below it. -/
theorem c8_rpn_error_characterization (ts : List Token) (h : noParens ts = true) :
    (evaluate_rpn ts = some (.error "Invalid expression") ↔
      (∃ i, i < ts.length ∧ (∃ op, ts[i]? = some (Token.operation op)) ∧
        numCount (ts.take i) < opCount (ts.take i) + 2)
      ∨ rpnRun [] ts = some (.ok []))
    ∧ ∀ (v : Int) (s : List Int),
        rpnRun [] ts = some (.ok (v :: s)) → evaluate_rpn ts = some (.ok v) := by
  have hiff := rpnRun_invalid_iff ts [] h
  simp only [List.length_nil, Nat.zero_add] at hiff
  constructor
  · cases hrun : rpnRun [] ts with
    | none =>
      have heval : evaluate_rpn ts = none := by
        unfold evaluate_rpn; rw [hrun]
      apply iff_of_false
      · rw [heval]; simp
      · rintro (hunder | hok)
        · exact absurd (hiff.mpr hunder) (by rw [hrun]; simp)
        · exact absurd hok (by simp)
    | some res =>
      cases res with
      | error e =>
        have he := rpnRun_error_msg ts [] e hrun
        subst he
        have heval : evaluate_rpn ts = some (.error "Invalid expression") := by
          unfold evaluate_rpn; rw [hrun]
        exact iff_of_true heval (Or.inl (hiff.mp hrun))
      | ok s =>
        cases s with
        | nil =>
          have heval : evaluate_rpn ts = some (.error "Invalid expression") := by
            unfold evaluate_rpn; rw [hrun]
          exact iff_of_true heval (Or.inr rfl)
        | cons v rest =>
          have heval : evaluate_rpn ts = some (.ok v) := by
            unfold evaluate_rpn; rw [hrun]
          apply iff_of_false
          · rw [heval]; simp
          · rintro (hunder | hok)
            · exact absurd (hiff.mpr hunder) (by rw [hrun]; simp)
            · exact absurd hok (by simp)
  · intro v s hrun
    unfold evaluate_rpn; rw [hrun]

/-- Witness for C8 on the postfix sequence of `d1 d2 +`. -/
theorem c8_rpn_error_characterization_witness :
    evaluate_rpn [Token.number ⟨1, Base.decimal⟩, Token.number ⟨2, Base.decimal⟩,
      Token.operation Operation.add] = some (.ok 3) :=
  (c8_rpn_error_characterization
    [Token.number ⟨1, Base.decimal⟩, Token.number ⟨2, Base.decimal⟩,
      Token.operation Operation.add] (by decide)).2 3 [] (by decide)

/-- The CloseParen pop loop keeps the stack invariant and adds no
parenthesis token to the output. -/
theorem popUntilOpen_inv :
    ∀ (stack out : List Token), stackInvB stack = true → noParens out = true →
      stackInvB (popUntilOpen stack out).1 = true
      ∧ noParens (popUntilOpen stack out).2 = true := by
  intro stack
  induction stack with
  | nil => intro out hs ho; exact ⟨rfl, ho⟩
  | cons t rest ih =>
    intro out hs ho
    cases t with
    | number n => simp [stackInvB] at hs
    | operation op =>
      have hrest : stackInvB rest = true := by
        simp only [stackInvB, List.all_cons, Bool.and_eq_true] at hs
        exact hs.2
      by_cases hop : op = Operation.openParen
      · subst hop
        simp only [popUntilOpen, if_pos rfl]
        exact ⟨hrest, ho⟩
      · have hcp : op ≠ Operation.closeParen := by
          intro hcontra; subst hcontra; simp [stackInvB] at hs
        have hout1 : noParens (out ++ [Token.operation op]) = true := by
          simp only [noParens, List.all_append, List.all_cons, List.all_nil,
            Bool.and_eq_true]
          refine ⟨ho, ?_, True.intro⟩
          cases op <;> simp_all
        simp only [popUntilOpen, if_neg hop]
        exact ih (out ++ [Token.operation op]) hrest hout1

/-- The precedence pop loop keeps the stack invariant and adds no
parenthesis token to the output. -/
theorem popWhileGE_inv (op : Operation) :
    ∀ (stack out : List Token), stackInvB stack = true → noParens out = true →
      stackInvB (popWhileGE op stack out).1 = true
      ∧ noParens (popWhileGE op stack out).2 = true := by
  intro stack
  induction stack with
  | nil => intro out hs ho; exact ⟨rfl, ho⟩
  | cons t rest ih =>
    intro out hs ho
    cases t with
    | number n => simp [stackInvB] at hs
    | operation top =>
      have hrest : stackInvB rest = true := by
        simp only [stackInvB, List.all_cons, Bool.and_eq_true] at hs
        exact hs.2
      by_cases hstop : top = Operation.openParen ∨ top.precedence < op.precedence
      · simp only [popWhileGE, if_pos hstop]
        exact ⟨hs, ho⟩
      · have htop : top ≠ Operation.openParen := fun hcontra => hstop (Or.inl hcontra)
        have hcp : top ≠ Operation.closeParen := by
          intro hcontra; subst hcontra; simp [stackInvB] at hs
        have hout1 : noParens (out ++ [Token.operation top]) = true := by
          simp only [noParens, List.all_append, List.all_cons, List.all_nil,
            Bool.and_eq_true]
          refine ⟨ho, ?_, True.intro⟩
          cases top <;> simp_all
        simp only [popWhileGE, if_neg hstop]
        exact ih (out ++ [Token.operation top]) hrest hout1

/-- The shunting-yard token loop keeps the output paren-free and the
operator stack free of Number and CloseParen tokens. -/
theorem syLoop_inv :
    ∀ (ts out stack : List Token), noParens out = true → stackInvB stack = true →
      noParens (syLoop ts out stack).1 = true
      ∧ stackInvB (syLoop ts out stack).2 = true := by
  intro ts
  induction ts with
  | nil => intro out stack ho hs; exact ⟨ho, hs⟩
  | cons t ts ih =>
    intro out stack ho hs
    cases t with
    | number n =>
      have hout1 : noParens (out ++ [Token.number n]) = true := by
        simp only [noParens, List.all_append, List.all_cons, List.all_nil,
          Bool.and_eq_true]
        exact ⟨ho, True.intro, True.intro⟩
      simpa only [syLoop] using ih (out ++ [Token.number n]) stack hout1 hs
    | operation op =>
      cases op with
      | openParen =>
        have hstack1 : stackInvB (Token.operation Operation.openParen :: stack) = true := by
          simp only [stackInvB, List.all_cons, Bool.and_eq_true]
          exact ⟨True.intro, hs⟩
        simpa only [syLoop] using ih out _ ho hstack1
      | closeParen =>
        obtain ⟨hs1, ho1⟩ := popUntilOpen_inv stack out hs ho
        simpa only [syLoop] using ih (popUntilOpen stack out).2 _ ho1 hs1
      | add =>
        obtain ⟨hs1, ho1⟩ := popWhileGE_inv Operation.add stack out hs ho
        have hstack1 : stackInvB
            (Token.operation Operation.add :: (popWhileGE Operation.add stack out).1) = true := by
          simp only [stackInvB, List.all_cons, Bool.and_eq_true]
          exact ⟨True.intro, hs1⟩
        simpa only [syLoop] using ih (popWhileGE Operation.add stack out).2 _ ho1 hstack1
      | subtract =>
        obtain ⟨hs1, ho1⟩ := popWhileGE_inv Operation.subtract stack out hs ho
        have hstack1 : stackInvB
            (Token.operation Operation.subtract :: (popWhileGE Operation.subtract stack out).1) = true := by
          simp only [stackInvB, List.all_cons, Bool.and_eq_true]
          exact ⟨True.intro, hs1⟩
        simpa only [syLoop] using ih (popWhileGE Operation.subtract stack out).2 _ ho1 hstack1
      | multiply =>
        obtain ⟨hs1, ho1⟩ := popWhileGE_inv Operation.multiply stack out hs ho
        have hstack1 : stackInvB
            (Token.operation Operation.multiply :: (popWhileGE Operation.multiply stack out).1) = true := by
          simp only [stackInvB, List.all_cons, Bool.and_eq_true]
          exact ⟨True.intro, hs1⟩
        simpa only [syLoop] using ih (popWhileGE Operation.multiply stack out).2 _ ho1 hstack1

/-- A successful final drain keeps the output paren-free. -/
theorem syDrain_inv :
    ∀ (stack out res : List Token), stackInvB stack = true → noParens out = true →
      syDrain stack out = .ok res → noParens res = true := by
  intro stack
  induction stack with
  | nil =>
    intro out res _ ho hok
    simp only [syDrain, Except.ok.injEq] at hok
    subst hok; exact ho
  | cons t rest ih =>
    intro out res hs ho hok
    cases t with
    | number n => simp [stackInvB] at hs
    | operation op =>
      have hrest : stackInvB rest = true := by
        simp only [stackInvB, List.all_cons, Bool.and_eq_true] at hs
        exact hs.2
      cases op with
      | openParen => simp [syDrain] at hok
      | closeParen => simp [stackInvB] at hs
      | add =>
        have hout1 : noParens (out ++ [Token.operation Operation.add]) = true := by
          simp only [noParens, List.all_append, List.all_cons, List.all_nil,
            Bool.and_eq_true]
          exact ⟨ho, True.intro, True.intro⟩
        exact ih (out ++ [Token.operation Operation.add]) res hrest hout1 hok
      | subtract =>
        have hout1 : noParens (out ++ [Token.operation Operation.subtract]) = true := by
          simp only [noParens, List.all_append, List.all_cons, List.all_nil,
            Bool.and_eq_true]
          exact ⟨ho, True.intro, True.intro⟩
        exact ih (out ++ [Token.operation Operation.subtract]) res hrest hout1 hok
      | multiply =>
        have hout1 : noParens (out ++ [Token.operation Operation.multiply]) = true := by
          simp only [noParens, List.all_append, List.all_cons, List.all_nil,
            Bool.and_eq_true]
          exact ⟨ho, True.intro, True.intro⟩
        exact ih (out ++ [Token.operation Operation.multiply]) res hrest hout1 hok

/-- The RPN loop cannot panic on paren-free tokens. -/
theorem rpnRun_ne_none :
    ∀ (ts : List Token) (stack : List Int), noParens ts = true →
      rpnRun stack ts ≠ none := by
  intro ts
  induction ts with
  | nil => intro stack _ h; simp [rpnRun] at h
  | cons t ts ih =>
    intro stack hnp
    have hnp1 : noParens ts = true := by
      simp only [noParens, List.all_cons, Bool.and_eq_true] at hnp
      exact hnp.2
    cases t with
    | number n =>
      simp only [rpnRun, rpnStep]
      exact ih (n.value :: stack) hnp1
    | operation op =>
      have hop3 : op = .add ∨ op = .subtract ∨ op = .multiply := by
        cases op <;> simp_all [noParens]
      match stack with
      | [] => simp [rpnRun, rpnStep]
      | [r] => simp [rpnRun, rpnStep]
      | r :: l :: rest =>
        obtain ⟨v, hv⟩ : ∃ v, op.apply l r = some v := by
          rcases hop3 with h | h | h <;> subst h <;> exact ⟨_, rfl⟩
        simp only [rpnRun, rpnStep, hv]
        exact ih (v :: rest) hnp1

/-- C10: a successful shunting-yard output holds no parenthesis tokens,
so evaluating it never reaches the `unreachable!()` panic branch of
`Operation::apply` (the evaluator returns `some` outcome, never the
panic marker `none`). -/
theorem c10_no_parens_no_panic (ts out : List Token)
    (h : shunting_yard ts = .ok out) :
    noParens out = true ∧ evaluate_rpn out ≠ none := by
  obtain ⟨ho, hs⟩ := syLoop_inv ts [] [] rfl rfl
  have hout : noParens out = true :=
    syDrain_inv (syLoop ts [] []).2 (syLoop ts [] []).1 out hs ho h
  refine ⟨hout, ?_⟩
  intro hcontra
  cases hrun : rpnRun [] out with
  | none => exact rpnRun_ne_none out [] hout hrun
  | some res =>
    rw [show evaluate_rpn out = (match rpnRun [] out with
      | none => none
      | some (.error e) => some (.error e)
      | some (.ok stack) =>
        match stack with
        | [] => some (.error "Invalid expression")
        | v :: _ => some (.ok v)) from rfl, hrun] at hcontra
    cases res with
    | error e => simp at hcontra
    | ok s => cases s with
      | nil => simp at hcontra
      | cons v rest => simp at hcontra

/-- Witness for C10 on the tokens of `d1+d2`. -/
theorem c10_no_parens_no_panic_witness :
    noParens [Token.number ⟨1, Base.decimal⟩, Token.number ⟨2, Base.decimal⟩,
      Token.operation Operation.add] = true :=
  (c10_no_parens_no_panic
    [Token.number ⟨1, Base.decimal⟩, Token.operation Operation.add,
      Token.number ⟨2, Base.decimal⟩]
    [Token.number ⟨1, Base.decimal⟩, Token.number ⟨2, Base.decimal⟩,
      Token.operation Operation.add] (by decide)).1

/-- C1 counterexample: `process("d(d2+d3)*d4d")` does not succeed with
`"d20"`; the leading `d` forms a digitless literal, so tokenization fails
with `Invalid decimal number:` on the empty remainder. -/
theorem c1_counterexample :
    process_expression "d(d2+d3)*d4d" = some (.error "Invalid decimal number: ")
    ∧ process_expression "d(d2+d3)*d4d" ≠ some (.ok "d20") := by
  constructor
  · decide
  · decide

/-- C1 (amended): without the stray leading base marker, parentheses do
override operator precedence: `process("(d2+d3)*d4d")` succeeds and
returns `"d20"`. -/
theorem c1_parens_override_precedence :
    process_expression "(d2+d3)*d4d" = some (.ok "d20") := by decide

/-- C4 counterexample: `process("d+d")` does fail, but with the
`InvalidNumber` diagnostic `"Invalid decimal number: "` (empty remainder
of the literal `d`), not with the insufficient-operands diagnostic
`"Invalid expression"`. -/
theorem c4_counterexample :
    process_expression "d+d" = some (.error "Invalid decimal number: ")
    ∧ process_expression "d+d" ≠ some (.error "Invalid expression") := by
  constructor
  · decide
  · decide

/-- C4 (amended): `process("d+d")` fails with the `InvalidNumber`
diagnostic for the digitless literal `d`, and `process("")` fails with
`EmptyExpression`. (An input that does reach the insufficient-operands
diagnostic is `"d1+d"`, whose body `d1+` tokenizes but leaves the `+`
one operand short.) -/
theorem c4_malformed_input_diagnostics :
    process_expression "d+d" = some (.error "Invalid decimal number: ")
    ∧ process_expression "" = some (.error "Empty expression")
    ∧ process_expression "d1+d" = some (.error "Invalid expression") := by
  refine ⟨by decide, by decide, by decide⟩

/-- C6: multiplication binds tighter than addition:
`process("d2+d3*d4d")` succeeds and returns `"d14"`. -/
theorem c6_precedence :
    process_expression "d2+d3*d4d" = some (.ok "d14") := by decide

/-- C7: base conversion to the trailing output-base marker:
`process("hAd")` returns `"d10"` and `process("d10h")` returns `"hA"`. -/
theorem c7_base_conversion :
    process_expression "hAd" = some (.ok "d10")
    ∧ process_expression "d10h" = some (.ok "hA") := by
  constructor
  · decide
  · decide

end BDC
